import Mathlib

/-!
Verification of the markdown entity parser/unparser of
`herokutl/extensions/markdown.py`.

Strings are embedded as lists of UTF-16-style code units (`List Nat`): the
parser operates on the surrogate-expanded representation, so a character
outside the Basic Multilingual Plane occupies two units.  Entities are a
tagged record over the kinds of `MessageEntity` used by the module; the
`length` field is an integer because the retroactive adjustments in `parse`
subtract from it without a lower bound.

The surrogate utility module (`helpers.add_surrogate`, `helpers.del_surrogate`,
`helpers.within_surrogate`, `helpers.strip_text`) is an external collaborator
whose source is not part of this tree; those four definitions are modelled
from the specification and marked as such.
-/

/-- Code units of a string literal (every character of the examples is in the
BMP, so one character is one unit). -/
def lit (x : String) : List Nat := x.toList.map Char.toNat

/-- `c` is a UTF-16 high (leading) surrogate unit. -/
def isHigh (c : Nat) : Bool := decide (55296 ≤ c) && decide (c < 56320)

/-- `c` is a UTF-16 low (trailing) surrogate unit. -/
def isLow (c : Nat) : Bool := decide (56320 ≤ c) && decide (c < 57344)

/-- Modelled from the spec: `helpers.add_surrogate` (not in this tree) expands
every character outside the Basic Multilingual Plane into its UTF-16 surrogate
pair, leaving all other characters unchanged. -/
def addSurrogate : List Nat → List Nat
  | [] => []
  | c :: cs =>
    if 65536 ≤ c && c ≤ 1114111 then
      (55296 + (c - 65536) / 1024) :: (56320 + (c - 65536) % 1024) :: addSurrogate cs
    else
      c :: addSurrogate cs

/-- Modelled from the spec: `helpers.del_surrogate` (not in this tree) is the
inverse conversion, recombining each adjacent high/low surrogate pair into the
code point it encodes and passing every other unit through. -/
def delSurrogate : List Nat → List Nat
  | [] => []
  | [c] => [c]
  | c :: c2 :: cs =>
    if isHigh c && isLow c2 then
      (65536 + (c - 55296) * 1024 + (c2 - 56320)) :: delSurrogate cs
    else
      c :: delSurrogate (c2 :: cs)

/-- Modelled from the spec: `helpers.within_surrogate` (not in this tree) is
true when a position falls strictly inside a surrogate pair, i.e. between a
high surrogate and the low surrogate that follows it. -/
def withinSurrogate (text : List Nat) (p : Int) : Bool :=
  decide (1 ≤ p) && decide (p < (text.length : Int)) &&
    isHigh (text.getD (p - 1).toNat 0) && isLow (text.getD p.toNat 0)

/-- Whitespace test used by the trimming step (space, ASCII control
whitespace, NEL and NBSP). -/
def isSpace (c : Nat) : Bool :=
  decide (c = 32) || (decide (9 ≤ c) && decide (c ≤ 13)) || decide (c = 133) || decide (c = 160)

/-- Number of leading whitespace units. -/
def countLeadingSpaces : List Nat → Nat
  | [] => 0
  | c :: cs => if isSpace c then countLeadingSpaces cs + 1 else 0

/-- Entity kinds of the data model. -/
inductive EntKind where
  | bold
  | italic
  | strike
  | code
  | pre
  | textUrl
  | mentionName
deriving DecidableEq, Repr

/-- A styling annotation.  `language` is meaningful only for `pre`, `url` only
for `textUrl`, `userId` only for `mentionName`; the other kinds carry the
neutral values `[]` and `0` in those fields. -/
structure MessageEntity where
  kind : EntKind
  offset : Int
  length : Int
  language : List Nat
  url : List Nat
  userId : Int
deriving DecidableEq, Repr

def mkBold (o l : Int) : MessageEntity := ⟨EntKind.bold, o, l, [], [], 0⟩

def mkItalic (o l : Int) : MessageEntity := ⟨EntKind.italic, o, l, [], [], 0⟩

def mkStrike (o l : Int) : MessageEntity := ⟨EntKind.strike, o, l, [], [], 0⟩

def mkCode (o l : Int) : MessageEntity := ⟨EntKind.code, o, l, [], [], 0⟩

def mkPre (o l : Int) : MessageEntity := ⟨EntKind.pre, o, l, [], [], 0⟩

def mkTextUrl (o l : Int) (u : List Nat) : MessageEntity := ⟨EntKind.textUrl, o, l, [], u, 0⟩

def mkMentionName (o l : Int) (uid : Int) : MessageEntity :=
  ⟨EntKind.mentionName, o, l, [], [], uid⟩

/-- A delimiter table: marker string to entity kind, in insertion order. -/
abbrev DTable := List (List Nat × EntKind)

/-- `DEFAULT_DELIMITERS` of the source, in its dictionary insertion order. -/
def DEFAULT_DELIMITERS : DTable :=
  [(lit "**", EntKind.bold),
   (lit "__", EntKind.italic),
   (lit "~~", EntKind.strike),
   (lit "`", EntKind.code),
   (lit "```", EntKind.pre)]

/-- Stable insertion (descending marker length) used by `sortDelims`. -/
def insDelim (x : List Nat × EntKind) : DTable → DTable
  | [] => [x]
  | y :: ys => if y.1.length ≤ x.1.length then x :: y :: ys else y :: insDelim x ys

/-- `sorted(delimiters, key=len, reverse=True)`: stable sort of the marker
strings by descending length, as used to build `delim_re`. -/
def sortDelims : DTable → DTable
  | [] => []
  | x :: xs => insDelim x (sortDelims xs)

/-- `delim_re.match(message, pos=i)` over the remaining text: the first
delimiter of the (length-sorted) table that is a prefix of the rest, together
with its kind. -/
def matchDelim (tbl : DTable) (rest : List Nat) : Option (List Nat × EntKind) :=
  tbl.find? (fun p => p.1.isPrefixOf rest)

/-- Helper for `findOccur`: position of the first occurrence of `d`,
offsetting reported positions by `j`. -/
def findOccurAux (d : List Nat) : List Nat → Nat → Option Nat
  | [], j => if d.isEmpty then some j else none
  | c :: cs, j => if d.isPrefixOf (c :: cs) then some j else findOccurAux d cs (j + 1)

/-- `message.find(d, start)`: index of the first occurrence of `d` in
`message` at or after `start` (`none` for Python's `-1`). -/
def findOccur (d msg : List Nat) (start : Nat) : Option Nat :=
  findOccurAux d (msg.drop start) start

/-- Split a list at the first occurrence of `c`, dropping that occurrence. -/
def splitAtFirst (c : Nat) : List Nat → Option (List Nat × List Nat)
  | [] => none
  | x :: xs =>
    if x = c then some ([], xs)
    else (splitAtFirst c xs).map (fun p => (x :: p.1, p.2))

/-- `DEFAULT_URL_RE.match(message, pos=i)`: the pattern
`\[([^]]*?)\]\(([\s\S]*?)\)` anchored at `i`.  Both groups are lazy, so the
label runs to the first `]` (which the class forbids inside the label) and the
url runs to the first `)`.  Returns `(label, url, match end)`. -/
def urlMatch (msg : List Nat) (i : Nat) : Option (List Nat × List Nat × Nat) :=
  match msg.drop i with
  | 91 :: r1 =>
    match splitAtFirst 93 r1 with
    | some (label, r2) =>
      match r2 with
      | 40 :: r3 =>
        match splitAtFirst 41 r3 with
        | some (url, _) => some (label, url, i + label.length + url.length + 4)
        | none => none
      | _ => none
    | none => none
  | _ => none

/-- State of the scanning loop of `parse`: the (surrogate-expanded, spliced)
text, the scan position and the entities recorded so far. -/
structure PState where
  message : List Nat
  i : Nat
  result : List MessageEntity
deriving DecidableEq, Repr

/-- One iteration of the `while i < len(message)` loop of `parse`. -/
def parseStep (tbl : DTable) (st : PState) : PState :=
  match matchDelim tbl (st.message.drop st.i) with
  | some (d, k) =>
    match findOccur d st.message (st.i + d.length + 1) with
    | some e =>
      let dl := d.length
      let newMsg := st.message.take st.i
        ++ (st.message.drop (st.i + dl)).take (e - (st.i + dl))
        ++ st.message.drop (e + dl)
      let adjusted := st.result.map (fun ent =>
        if (st.i : Int) < ent.offset + ent.length then
          if ent.offset ≤ (st.i : Int) ∧ ((e + dl : Nat) : Int) ≤ ent.offset + ent.length then
            ⟨ent.kind, ent.offset, ent.length - 2 * dl, ent.language, ent.url, ent.userId⟩
          else
            ⟨ent.kind, ent.offset, ent.length - dl, ent.language, ent.url, ent.userId⟩
        else ent)
      let newEnt : MessageEntity := ⟨k, st.i, (e : Int) - st.i - dl, [], [], 0⟩
      let newI := if k = EntKind.code ∨ k = EntKind.pre then e - dl else st.i
      ⟨newMsg, newI, adjusted ++ [newEnt]⟩
    | none => ⟨st.message, st.i + 1, st.result⟩
  | none =>
    match urlMatch st.message st.i with
    | some (label, url, mEnd) =>
      let delimSize : Int := (mEnd : Int) - st.i - label.length
      let newMsg := st.message.take st.i ++ label ++ st.message.drop mEnd
      let adjusted := st.result.map (fun ent =>
        if (st.i : Int) < ent.offset + ent.length then
          ⟨ent.kind, ent.offset, ent.length - delimSize, ent.language, ent.url, ent.userId⟩
        else ent)
      let newEnt : MessageEntity := ⟨EntKind.textUrl, st.i, label.length, [], delSurrogate url, 0⟩
      ⟨newMsg, st.i + label.length, adjusted ++ [newEnt]⟩
    | none => ⟨st.message, st.i + 1, st.result⟩

/-- The scanning loop, with fuel.  Every iteration on a table without empty
markers strictly decreases `len(message) - i`, so `message.length + 1` units
of fuel make this the exact loop of the source on such tables. -/
def parseLoop (tbl : DTable) : Nat → PState → PState
  | 0, st => st
  | f + 1, st =>
    if st.i < st.message.length then parseLoop tbl f (parseStep tbl st) else st

/-- Modelled from the spec: `helpers.strip_text` (not in this tree) trims
leading/trailing whitespace from the text and shifts/clips every entity to the
trimmed bounds, dropping an entity that ends up covering nothing.  When there
is no whitespace to trim, text and entities are returned unchanged. -/
def stripText (msg : List Nat) (ents : List MessageEntity) : List Nat × List MessageEntity :=
  let l := countLeadingSpaces msg
  let t := countLeadingSpaces msg.reverse
  if l = 0 ∧ t = 0 then (msg, ents)
  else
    let core := (msg.drop l).take (msg.length - l - t)
    let n : Int := core.length
    let es := ents.filterMap (fun ent =>
      let s := max 0 (min (ent.offset - (l : Int)) n)
      let e := max 0 (min (ent.offset + ent.length - (l : Int)) n)
      if s < e then some ⟨ent.kind, s, e - s, ent.language, ent.url, ent.userId⟩ else none)
    (core, es)

/-- Body of `parse` once a non-empty delimiter table has been fixed. -/
def parseRun (tbl : DTable) (input : List Nat) : List Nat × List MessageEntity :=
  let msg := addSurrogate input
  let fin := parseLoop (sortDelims tbl) (msg.length + 1) ⟨msg, 0, []⟩
  let p := stripText fin.message fin.result
  (delSurrogate p.1, p.2)

/-- `parse(message, delimiters)` with the default URL pattern.  `none` stands
for Python's `None` (use the built-in table); `some []` is the explicitly
empty table, which short-circuits. -/
def parse (input : List Nat) (delims : Option DTable) : List Nat × List MessageEntity :=
  if input.isEmpty then (input, [])
  else
    match delims with
    | some [] => (input, [])
    | some (p :: ps) => parseRun (p :: ps) input
    | none => parseRun DEFAULT_DELIMITERS input

/-- Decimal digits (code units) of a natural number, with fuel. -/
def natDigitsAux : Nat → Nat → List Nat
  | 0, _ => []
  | f + 1, n => if n < 10 then [48 + n] else natDigitsAux f (n / 10) ++ [48 + n % 10]

/-- Code units of Python's `str(i)` for an integer. -/
def intStr (i : Int) : List Nat :=
  if i < 0 then 45 :: natDigitsAux ((-i).toNat + 1) (-i).toNat
  else natDigitsAux (i.toNat + 1) i.toNat

/-- Code units of `'tg://user?id=' + str(uid)`. -/
def mentionUrlCodes (uid : Int) : List Nat := lit "tg://user?id=" ++ intStr uid

/-- `{v: k for k, v in delimiters.items()}` looked up at kind `k`: the last
marker mapped to `k` (later table items overwrite earlier ones). -/
def revLookup (tbl : DTable) (k : EntKind) : Option (List Nat) :=
  ((tbl.filter (fun p => decide (p.2 = k))).getLast?).map (fun p => p.1)

/-- One scheduled insertion of `unparse`: position, tie-break tag, text. -/
abbrev InsItem := Int × Int × List Nat

/-- Insertions contributed by entity number `i` through the URL branch of
`unparse` (`TextURL` and `MentionName` entities with a truthy url). -/
def urlInserts (i : Nat) (ent : MessageEntity) : List InsItem :=
  match ent.kind with
  | EntKind.textUrl =>
    if ent.url.isEmpty then []
    else [(ent.offset, (i : Int), [91]),
          (ent.offset + ent.length, -(i : Int), [93, 40] ++ ent.url ++ [41])]
  | EntKind.mentionName =>
    [(ent.offset, (i : Int), [91]),
     (ent.offset + ent.length, -(i : Int), [93, 40] ++ mentionUrlCodes ent.userId ++ [41])]
  | _ => []

/-- Insertions contributed by entity number `i`: a pair of markers when the
reversed table maps its kind to a truthy delimiter, else the URL branch. -/
def insertsFor (tbl : DTable) (i : Nat) (ent : MessageEntity) : List InsItem :=
  match revLookup tbl ent.kind with
  | some d =>
    if d.isEmpty then urlInserts i ent
    else [(ent.offset, (i : Int), d), (ent.offset + ent.length, -(i : Int), d)]
  | none => urlInserts i ent

/-- All scheduled insertions, entities enumerated from index `i`. -/
def buildInserts (tbl : DTable) : Nat → List MessageEntity → List InsItem
  | _, [] => []
  | i, ent :: es => insertsFor tbl i ent ++ buildInserts tbl (i + 1) es

/-- Key order of `insert_at.sort(key=lambda t: (t[0], t[1]))`. -/
def keyLE (a b : InsItem) : Bool :=
  decide (a.1 < b.1) || (decide (a.1 = b.1) && decide (a.2.1 ≤ b.2.1))

/-- Stable ascending insertion for `sortInserts`. -/
def insItem (x : InsItem) : List InsItem → List InsItem
  | [] => [x]
  | y :: ys => if keyLE x y then x :: y :: ys else y :: insItem x ys

/-- Stable sort by `(position, tag)`, as the source sorts `insert_at`. -/
def sortInserts : List InsItem → List InsItem
  | [] => []
  | x :: xs => insItem x (sortInserts xs)

/-- Effective index of Python slicing `text[:p]` / `text[p:]` for an integer
position (negative positions count from the end). -/
def sliceIdx (n : Nat) (p : Int) : Nat :=
  if p < 0 then n - min n (-p).toNat else min n p.toNat

/-- `text[:p] + what + text[p:]`. -/
def pyInsert (text : List Nat) (p : Int) (what : List Nat) : List Nat :=
  let k := sliceIdx text.length p
  text.take k ++ what ++ text.drop k

/-- `while within_surrogate(text, at): at += 1`, with fuel.  With fuel
`text.length + 1` this computes exactly the loop of the source for every
starting position. -/
def nudgeF (text : List Nat) : Nat → Int → Int
  | 0, p => p
  | f + 1, p => if withinSurrogate text p then nudgeF text f (p + 1) else p

/-- `while insert_at: at, _, what = insert_at.pop(); ...` — the argument list
is the schedule in pop order (reverse of the sorted list). -/
def applyRev (text : List Nat) : List InsItem → List Nat
  | [] => text
  | (p, _, w) :: rest =>
    applyRev (pyInsert text (nudgeF text (text.length + 1) p) w) rest

/-- The insertion phase of `unparse` on the surrogate-expanded text. -/
def unparseCore (tbl : DTable) (expanded : List Nat) (ents : List MessageEntity) : List Nat :=
  applyRev expanded (sortInserts (buildInserts tbl 0 ents)).reverse

/-- The `entities` argument of `unparse`: either a bare `TLObject` entity or a
collection. -/
inductive EntitiesArg where
  | single (e : MessageEntity)
  | many (l : List MessageEntity)
deriving DecidableEq, Repr

/-- Python truthiness test `not entities`: a bare `TLObject` is truthy, a
collection is falsy exactly when empty. -/
def entitiesEmpty : EntitiesArg → Bool
  | EntitiesArg.single _ => false
  | EntitiesArg.many l => l.isEmpty

/-- The wrap `if isinstance(entities, TLObject): entities = (entities,)`. -/
def entList : EntitiesArg → List MessageEntity
  | EntitiesArg.single e => [e]
  | EntitiesArg.many l => l

/-- `unparse(text, entities, delimiters)`.  `none` stands for `None` (default
table); `some []` is the explicitly empty table, which returns the text. -/
def unparse (text : List Nat) (entities : EntitiesArg) (delims : Option DTable) : List Nat :=
  if text.isEmpty then text
  else if entitiesEmpty entities then text
  else
    match delims with
    | some [] => text
    | some (p :: ps) => delSurrogate (unparseCore (p :: ps) (addSurrogate text) (entList entities))
    | none => delSurrogate (unparseCore DEFAULT_DELIMITERS (addSurrogate text) (entList entities))

/-- The text is well-formed UTF-16: the flag records whether the previous unit
was a high surrogate (so the next must be the matching low).  `wfA false t`
says every high surrogate of `t` is immediately followed by a low one and
every low surrogate immediately follows a high one — i.e. no surrogate pair is
split and no stray half occurs. -/
def wfA : Bool → List Nat → Bool
  | false, [] => true
  | true, [] => false
  | true, c :: cs => isLow c && wfA false cs
  | false, c :: cs => if isHigh c then wfA true cs else !(isLow c) && wfA false cs

/-- The list contains no surrogate units at all. -/
def sfreeB (w : List Nat) : Bool := w.all (fun c => !(isHigh c) && !(isLow c))

/-- Every item of the default table also belongs to its length-sorted form. -/
theorem mem_sortDelims_default (p : List Nat × EntKind) (h : p ∈ DEFAULT_DELIMITERS) :
    p ∈ sortDelims DEFAULT_DELIMITERS := by
  simp only [DEFAULT_DELIMITERS, List.mem_cons, List.not_mem_nil, or_false] at h
  rcases h with rfl | rfl | rfl | rfl | rfl <;> decide

/-- `find?` over a list sorted by descending marker length returns a match of
maximal length among all matching items. -/
theorem find_longest_of_sorted (l : DTable) (rest : List Nat)
    (hs : l.Pairwise (fun a b => b.1.length ≤ a.1.length)) (d : List Nat) (k : EntKind)
    (hf : l.find? (fun p => p.1.isPrefixOf rest) = some (d, k)) :
    ∀ p ∈ l, p.1.isPrefixOf rest = true → p.1.length ≤ d.length := by
  induction l with
  | nil => simp at hf
  | cons x xs ih =>
    rcases List.pairwise_cons.mp hs with ⟨hx, hxs⟩
    by_cases hpx : x.1.isPrefixOf rest
    · simp only [List.find?_cons, hpx] at hf
      have hx1 : x = (d, k) := Option.some_inj.mp hf
      intro p hp _
      rcases List.mem_cons.mp hp with rfl | hmem
      · simp [hx1]
      · have := hx p hmem
        rw [hx1] at this
        simpa using this

    · have hpx2 : x.1.isPrefixOf rest = false := by
        revert hpx; cases x.1.isPrefixOf rest <;> simp
      simp only [List.find?_cons, hpx2] at hf
      intro p hp hpre
      rcases List.mem_cons.mp hp with rfl | hmem
      · exact absurd hpre hpx
      · exact ih hxs hf p hmem hpre

/-- C1: round-trip failure.  `parse("__`__a`")` returns `("a", [Italic(0,0),
Code(0,1)])` — the retroactive adjustment shrinks the italic entity to length
zero.  `unparse` renders that pair as `"____`a`"`, and re-parsing yields
`("____a", [Code(4,1)])`, not the original pair: applying `parse` to
`unparse(clean_text, entities)` does not reproduce `(clean_text, entities)`,
although `unparse` documents itself as the reverse operation of `parse`. -/
theorem roundtrip_failure_on_zero_length_entity :
    parse (lit "__`__a`") none = (lit "a", [mkItalic 0 0, mkCode 0 1]) ∧
    unparse (lit "a") (EntitiesArg.many [mkItalic 0 0, mkCode 0 1]) none = lit "____`a`" ∧
    parse (lit "____`a`") none = (lit "____a", [mkCode 4 1]) ∧
    (let p := parse (lit "__`__a`") none
     parse (unparse p.1 (EntitiesArg.many p.2) none) none ≠ p) := by
  refine ⟨by decide, by decide, by decide, by decide⟩

/-- C2: retroactive adjustment on splice.  When a pair match is spliced out at
opening position `i` with closing occurrence `end`, every previously recorded
entity whose span extends past `i` is shrunk by two delimiter lengths when it
encloses both removed occurrences (`offset ≤ i` and
`offset + length ≥ end + len(delim)`) and by one delimiter length otherwise;
consequently `parse("**a** **b**")` yields two bold entities at the correctly
shifted, non-overlapping offsets. -/
theorem retroactive_adjustment_on_splice :
    (∀ (tbl : DTable) (st : PState) (d : List Nat) (k : EntKind) (e : Nat),
        matchDelim tbl (st.message.drop st.i) = some (d, k) →
        findOccur d st.message (st.i + d.length + 1) = some e →
        (parseStep tbl st).result.take st.result.length = st.result.map (fun ent =>
          if (st.i : Int) < ent.offset + ent.length then
            if ent.offset ≤ (st.i : Int) ∧ ((e + d.length : Nat) : Int) ≤ ent.offset + ent.length then
              ⟨ent.kind, ent.offset, ent.length - 2 * d.length, ent.language, ent.url, ent.userId⟩
            else
              ⟨ent.kind, ent.offset, ent.length - d.length, ent.language, ent.url, ent.userId⟩
          else ent)) ∧
    parse (lit "**a** **b**") none = (lit "a b", [mkBold 0 1, mkBold 2 1]) := by
  refine ⟨?_, by decide⟩
  intro tbl st d k e hm hf
  simp only [parseStep, hm, hf]
  exact List.take_left' (by simp)

/-- C2 witness: the second splice of `parse("__`__a`")`, where the earlier
italic entity spans the opening backtick and is shrunk by one delimiter
length, from 1 to 0. -/
theorem retroactive_adjustment_on_splice_witness :
    (parseStep (sortDelims DEFAULT_DELIMITERS) ⟨lit "`a`", 0, [mkItalic 0 1]⟩).result.take 1 =
      [mkItalic 0 0] :=
  (retroactive_adjustment_on_splice.1 (sortDelims DEFAULT_DELIMITERS)
    ⟨lit "`a`", 0, [mkItalic 0 1]⟩ (lit "`") EntKind.code 2 (by decide) (by decide)).trans
    (by decide)

/-- C3: pair-match postcondition.  A delimiter matched at `i` with closing
occurrence at `end` removes both delimiter occurrences from the text and
appends an entity of the mapped kind with `offset = i` and
`length = end - i - len(delim)` (the `language` field of a `pre` entity is
empty); in particular `parse("**bold**") = ("bold", [Bold(0,4)])` and
parsing "a `code` b" gives `("a code b", [Code(2,4)])`. -/
theorem pair_match_postcondition :
    (∀ (tbl : DTable) (st : PState) (d : List Nat) (k : EntKind) (e : Nat),
        matchDelim tbl (st.message.drop st.i) = some (d, k) →
        findOccur d st.message (st.i + d.length + 1) = some e →
        (parseStep tbl st).message = st.message.take st.i
            ++ (st.message.drop (st.i + d.length)).take (e - (st.i + d.length))
            ++ st.message.drop (e + d.length) ∧
        (parseStep tbl st).result.getLast? =
          some ⟨k, (st.i : Int), (e : Int) - st.i - d.length, [], [], 0⟩) ∧
    parse (lit "**bold**") none = (lit "bold", [mkBold 0 4]) ∧
    parse (lit "a `code` b") none = (lit "a code b", [mkCode 2 4]) := by
  refine ⟨?_, by decide, by decide⟩
  intro tbl st d k e hm hf
  simp only [parseStep, hm, hf]
  exact ⟨by trivial, by simp⟩

/-- C3 witness: the opening `**` of `"**bold**"` pairs with the occurrence at
position 6, producing the spliced text `"bold"` and the entity `Bold(0, 4)`. -/
theorem pair_match_postcondition_witness :
    (parseStep (sortDelims DEFAULT_DELIMITERS) ⟨lit "**bold**", 0, []⟩).message = lit "bold" ∧
    (parseStep (sortDelims DEFAULT_DELIMITERS) ⟨lit "**bold**", 0, []⟩).result.getLast? =
      some (mkBold 0 4) :=
  ⟨((pair_match_postcondition.1 (sortDelims DEFAULT_DELIMITERS) ⟨lit "**bold**", 0, []⟩
      (lit "**") EntKind.bold 6 (by decide) (by decide)).1).trans (by decide),
   ((pair_match_postcondition.1 (sortDelims DEFAULT_DELIMITERS) ⟨lit "**bold**", 0, []⟩
      (lit "**") EntKind.bold 6 (by decide) (by decide)).2).trans (by decide)⟩

/-- C4: an unterminated delimiter degrades to literal text.  When a delimiter
matches at `i` but that exact delimiter string has no occurrence at or after
`i + len(delim) + 1`, the step records no entity, leaves the text unchanged
and advances the scan by one position (the embedding is a total function, so
no error is raised); in particular `parse("**bold") = ("**bold", [])`. -/
theorem unterminated_delimiter_is_literal :
    (∀ (tbl : DTable) (st : PState) (d : List Nat) (k : EntKind),
        matchDelim tbl (st.message.drop st.i) = some (d, k) →
        findOccur d st.message (st.i + d.length + 1) = none →
        parseStep tbl st = ⟨st.message, st.i + 1, st.result⟩) ∧
    parse (lit "**bold") none = (lit "**bold", []) := by
  refine ⟨?_, by decide⟩
  intro tbl st d k hm hf
  simp only [parseStep, hm, hf]

/-- C4 witness: at position 0 of `"**bold"` the `**` delimiter matches but
never closes, so the scan just moves to position 1. -/
theorem unterminated_delimiter_is_literal_witness :
    parseStep (sortDelims DEFAULT_DELIMITERS) ⟨lit "**bold", 0, []⟩ = ⟨lit "**bold", 1, []⟩ :=
  unterminated_delimiter_is_literal.1 (sortDelims DEFAULT_DELIMITERS) ⟨lit "**bold", 0, []⟩
    (lit "**") EntKind.bold (by decide) (by decide)

/-- C5: URL-link handling.  When no delimiter matches at `i` but the URL
pattern does, the whole match is replaced by the label, every previously
recorded entity extending past the match start is shrunk by the number of
removed units, a `TextURL` entity with `offset = i`, `length = len(label)` and
the second capture group as url (read back out of the surrogate-expanded
representation) is appended, and the scan advances by `len(label)`; in
particular `parse("[x](http://y)") = ("x", [TextURL(0, 1, "http://y")])`. -/
theorem url_link_postcondition :
    (∀ (tbl : DTable) (st : PState) (label url : List Nat) (mEnd : Nat),
        matchDelim tbl (st.message.drop st.i) = none →
        urlMatch st.message st.i = some (label, url, mEnd) →
        parseStep tbl st = ⟨st.message.take st.i ++ label ++ st.message.drop mEnd,
          st.i + label.length,
          st.result.map (fun ent =>
            if (st.i : Int) < ent.offset + ent.length then
              ⟨ent.kind, ent.offset, ent.length - ((mEnd : Int) - st.i - label.length),
                ent.language, ent.url, ent.userId⟩
            else ent)
          ++ [⟨EntKind.textUrl, (st.i : Int), (label.length : Int), [], delSurrogate url, 0⟩]⟩) ∧
    parse (lit "[x](http://y)") none = (lit "x", [mkTextUrl 0 1 (lit "http://y")]) := by
  refine ⟨?_, by decide⟩
  intro tbl st label url mEnd hm hu
  simp only [parseStep, hm, hu]

/-- C5 witness: `"[x](http://y)"` at position 0 becomes the text `"x"` with
the single entity `TextURL(0, 1, "http://y")` and the scan advances to 1. -/
theorem url_link_postcondition_witness :
    parseStep (sortDelims DEFAULT_DELIMITERS) ⟨lit "[x](http://y)", 0, []⟩ =
      ⟨lit "x", 1, [mkTextUrl 0 1 (lit "http://y")]⟩ :=
  (url_link_postcondition.1 (sortDelims DEFAULT_DELIMITERS) ⟨lit "[x](http://y)", 0, []⟩
    (lit "x") (lit "http://y") 13 (by decide) (by decide)).trans (by decide)

/-- C6: three-way delimiter-table configuration.  An explicitly empty table
short-circuits `parse` to the message with no entities, an absent table makes
`parse` use the built-in default table, and the two configurations are
observably distinguished (e.g. on `"**bold**"`). -/
theorem delimiter_table_configuration :
    (∀ input : List Nat, parse input (some []) = (input, [])) ∧
    (∀ input : List Nat, parse input none = parse input (some DEFAULT_DELIMITERS)) ∧
    parse (lit "**bold**") none ≠ parse (lit "**bold**") (some []) := by
  refine ⟨fun input => ?_, fun input => rfl, by decide⟩
  by_cases h : input.isEmpty <;> simp [parse, h]

/-- C9: empty-input identities.  `parse` returns an empty message unchanged
with no entities, and `unparse` returns its text argument unchanged whenever
the text is empty or the entity collection is empty. -/
theorem empty_input_identities :
    (∀ d : Option DTable, parse [] d = ([], [])) ∧
    (∀ (text : List Nat) (d : Option DTable), unparse text (EntitiesArg.many []) d = text) ∧
    (∀ (ents : EntitiesArg) (d : Option DTable), unparse [] ents d = []) := by
  refine ⟨fun d => rfl, fun text d => ?_, fun ents d => rfl⟩
  by_cases h : text.isEmpty <;> simp [unparse, h, entitiesEmpty]

/-- C10: `unparse` accepts a single bare entity in place of a collection; it
is wrapped into a one-element tuple, so the result equals `unparse` of the
one-element collection, for every text and delimiter configuration. -/
theorem unparse_single_entity_wrapped (text : List Nat) (e : MessageEntity)
    (d : Option DTable) :
    unparse text (EntitiesArg.single e) d = unparse text (EntitiesArg.many [e]) d := rfl

/-- C7: longest-first delimiter matching.  For the default table, whenever a
delimiter of the table is a prefix of the remaining text, the delimiter the
parser selects is at least as long (so of two prefix-sharing matches the
longer wins); in particular a ``` fence position always matches as `pre`,
never as inline `code`, and `parse` on a fenced block yields a `pre`
entity. -/
theorem longest_first_delimiter_matching :
    (∀ (rest d : List Nat) (k : EntKind),
        matchDelim (sortDelims DEFAULT_DELIMITERS) rest = some (d, k) →
        ∀ p ∈ DEFAULT_DELIMITERS, p.1.isPrefixOf rest = true → p.1.length ≤ d.length) ∧
    (∀ rest : List Nat, (lit "```").isPrefixOf rest = true →
        matchDelim (sortDelims DEFAULT_DELIMITERS) rest = some (lit "```", EntKind.pre)) ∧
    parse (lit "```x```") none = (lit "x", [mkPre 0 1]) := by
  refine ⟨?_, ?_, by decide⟩
  · intro rest d k hm p hp hpre
    exact find_longest_of_sorted _ rest (by decide) d k hm p (mem_sortDelims_default p hp) hpre
  · intro rest hpre
    have hs : sortDelims DEFAULT_DELIMITERS =
        [(lit "```", EntKind.pre), (lit "**", EntKind.bold), (lit "__", EntKind.italic),
         (lit "~~", EntKind.strike), (lit "`", EntKind.code)] := by decide
    unfold matchDelim
    rw [hs]
    simp only [List.find?_cons, hpre]

/-- C7 witness: at a fence, the selected delimiter is ``` mapped to `pre`
(never the shorter inline-code backtick). -/
theorem longest_first_delimiter_matching_witness :
    matchDelim (sortDelims DEFAULT_DELIMITERS) (lit "```x```") =
      some (lit "```", EntKind.pre) :=
  longest_first_delimiter_matching.2.1 (lit "```x```") (by decide)

/-- The nudging loop never moves an insertion position backwards. -/
theorem nudge_ge (text : List Nat) : ∀ (f : Nat) (p : Int), p ≤ nudgeF text f p := by
  intro f
  induction f with
  | zero => intro p; simp [nudgeF]
  | succ f ih =>
    intro p
    simp only [nudgeF]
    split
    · exact le_trans (by omega) (ih (p + 1))
    · exact le_refl p

/-- With at least `len - p` units of fuel the nudging loop stops at a position
that is not inside a surrogate pair. -/
theorem nudge_not_within (text : List Nat) : ∀ (f : Nat) (p : Int),
    (text.length : Int) - p ≤ f → withinSurrogate text (nudgeF text f p) = false := by
  intro f
  induction f with
  | zero =>
    intro p hp
    simp only [nudgeF]
    unfold withinSurrogate
    have h2 : ¬ (p < (text.length : Int)) := by omega
    simp [h2]
  | succ f ih =>
    intro p hp
    simp only [nudgeF]
    split
    · rename_i hw
      apply ih
      have hlt : p < (text.length : Int) := by
        unfold withinSurrogate at hw
        simp only [Bool.and_eq_true, decide_eq_true_eq] at hw
        exact hw.1.1.2
      omega
    · rename_i hw
      revert hw
      cases withinSurrogate text p <;> simp

/-- Concatenating well-formed texts is well-formed. -/
theorem wfA_append : ∀ (a : List Nat) (f : Bool) (b : List Nat),
    wfA f a = true → wfA false b = true → wfA f (a ++ b) = true := by
  intro a
  induction a with
  | nil =>
    intro f b ha hb
    cases f
    · simpa using hb
    · simp [wfA] at ha
  | cons c cs ih =>
    intro f b ha hb
    cases f
    · simp only [wfA, List.cons_append] at ha ⊢
      by_cases hh : isHigh c = true
      · rw [if_pos hh] at ha ⊢
        exact ih true b ha hb
      · rw [if_neg hh] at ha ⊢
        simp only [Bool.and_eq_true] at ha ⊢
        exact ⟨ha.1, ih false b ha.2 hb⟩
    · simp only [wfA, List.cons_append, Bool.and_eq_true] at ha ⊢
      exact ⟨ha.1, ih false b ha.2 hb⟩

/-- Splitting a well-formed text at a position whose preceding unit is not a
high surrogate yields two well-formed halves (the first in the incoming
automaton state). -/
theorem wfA_split : ∀ (t : List Nat) (f : Bool) (k : Nat),
    wfA f t = true → (k = 0 → f = false) →
    (1 ≤ k → k ≤ t.length → isHigh (t.getD (k - 1) 0) = false) →
    wfA f (t.take k) = true ∧ wfA false (t.drop k) = true := by
  intro t
  induction t with
  | nil =>
    intro f k hw h0 _hH
    have hf : f = false := by
      cases f
      · rfl
      · simp [wfA] at hw
    subst hf
    simp [wfA]
  | cons c cs ih =>
    intro f k hw h0 hH
    cases k with
    | zero =>
      have hf := h0 rfl
      subst hf
      exact ⟨by simp [wfA], by simpa using hw⟩
    | succ j =>
      have hH2 : 1 ≤ j → j ≤ cs.length → isHigh (cs.getD (j - 1) 0) = false := by
        intro hj1 hj2
        obtain ⟨m, rfl⟩ : ∃ m, j = m + 1 := ⟨j - 1, by omega⟩
        have h := hH (by omega) (by simp; omega)
        simpa using h
      cases f
      · by_cases hh : isHigh c = true
        · have hw2 : wfA true cs = true := by simpa [wfA, hh] using hw
          cases j with
          | zero =>
            have hc := hH (by omega) (by simp)
            simp at hc
            exact absurd hh (by simp [hc])
          | succ m =>
            have hrec := ih true (m + 1) hw2 (fun hcontr => by omega) hH2
            constructor
            · simpa [wfA, hh] using hrec.1
            · simpa using hrec.2
        · have hw2 : (!(isLow c) && wfA false cs) = true := by simpa [wfA, hh] using hw
          simp only [Bool.and_eq_true] at hw2
          have hrec := ih false j hw2.2 (fun _ => rfl) hH2
          constructor
          · simp only [List.take_succ_cons, wfA]
            rw [if_neg hh]
            simp only [Bool.and_eq_true]
            exact ⟨hw2.1, hrec.1⟩
          · simpa using hrec.2
      · have hw2 : (isLow c && wfA false cs) = true := by simpa [wfA] using hw
        simp only [Bool.and_eq_true] at hw2
        have hrec := ih false j hw2.2 (fun _ => rfl) hH2
        constructor
        · simp only [List.take_succ_cons, wfA, Bool.and_eq_true]
          exact ⟨hw2.1, hrec.1⟩
        · simpa using hrec.2

/-- In a well-formed text a high surrogate at position `j` is immediately
followed by a low surrogate at position `j + 1`. -/
theorem wfA_high_next : ∀ (t : List Nat) (f : Bool), wfA f t = true →
    ∀ j, j < t.length → isHigh (t.getD j 0) = true →
    j + 1 < t.length ∧ isLow (t.getD (j + 1) 0) = true := by
  intro t
  induction t with
  | nil => intro f _ j hj; simp at hj
  | cons c cs ih =>
    intro f hw j hj hh
    cases f
    · by_cases hc : isHigh c = true
      · have hw2 : wfA true cs = true := by simpa [wfA, hc] using hw
        cases j with
        | zero =>
          cases cs with
          | nil => simp [wfA] at hw2
          | cons c2 cs2 =>
            have h2 : (isLow c2 && wfA false cs2) = true := by simpa [wfA] using hw2
            simp only [Bool.and_eq_true] at h2
            exact ⟨by simp, by simpa using h2.1⟩
        | succ m =>
          have hrec := ih true hw2 m (by simpa using hj) (by simpa using hh)
          exact ⟨by simpa using hrec.1, by simpa using hrec.2⟩
      · have hw2 : (!(isLow c) && wfA false cs) = true := by simpa [wfA, hc] using hw
        simp only [Bool.and_eq_true] at hw2
        cases j with
        | zero => exact absurd (by simpa using hh) hc
        | succ m =>
          have hrec := ih false hw2.2 m (by simpa using hj) (by simpa using hh)
          exact ⟨by simpa using hrec.1, by simpa using hrec.2⟩
    · have hw2 : (isLow c && wfA false cs) = true := by simpa [wfA] using hw
      simp only [Bool.and_eq_true] at hw2
      cases j with
      | zero =>
        have : isHigh c = true := by simpa using hh
        have hlow := hw2.1
        simp only [isHigh, isLow, Bool.and_eq_true, decide_eq_true_eq] at this hlow
        omega
      | succ m =>
        have hrec := ih false hw2.2 m (by simpa using hj) (by simpa using hh)
        exact ⟨by simpa using hrec.1, by simpa using hrec.2⟩

/-- A surrogate-free text is well-formed. -/
theorem sfree_wfA : ∀ w : List Nat, sfreeB w = true → wfA false w = true := by
  intro w
  induction w with
  | nil => intro _; rfl
  | cons c cs ih =>
    intro h
    simp only [sfreeB, List.all_cons, Bool.and_eq_true, Bool.not_eq_true] at h
    have hcs := ih (by simpa [sfreeB] using h.2)
    simp [wfA, h.1.1, h.1.2, hcs]

/-- Inserting a surrogate-free string at a (nudged) non-negative position of a
well-formed text keeps the text well-formed. -/
theorem wf_insert_step (t w : List Nat) (p : Int)
    (hw : wfA false t = true) (hsf : sfreeB w = true) (hp : 0 ≤ p) :
    wfA false (pyInsert t (nudgeF t (t.length + 1) p) w) = true := by
  have hq0 : 0 ≤ nudgeF t (t.length + 1) p := le_trans hp (nudge_ge t _ p)
  have hnw : withinSurrogate t (nudgeF t (t.length + 1) p) = false :=
    nudge_not_within t _ p (by omega)
  set q := nudgeF t (t.length + 1) p with hqdef
  have hk : sliceIdx t.length q = min t.length q.toNat := by
    unfold sliceIdx
    rw [if_neg (by omega)]
  have hH : 1 ≤ min t.length q.toNat → min t.length q.toNat ≤ t.length →
      isHigh (t.getD (min t.length q.toNat - 1) 0) = false := by
    intro h1 _h2
    by_contra hhigh
    have hhigh2 : isHigh (t.getD (min t.length q.toNat - 1) 0) = true := by
      revert hhigh; cases isHigh (t.getD (min t.length q.toNat - 1) 0) <;> simp
    have hlt : min t.length q.toNat - 1 < t.length := by omega
    obtain ⟨hlt2, hlow⟩ := wfA_high_next t false hw _ hlt hhigh2
    have hmin_lt : min t.length q.toNat < t.length := by omega
    have hqn : q.toNat < t.length := by omega
    have hqmin : min t.length q.toNat = q.toNat := by omega
    have hwithin : withinSurrogate t q = true := by
      have e1 : decide ((1 : Int) ≤ q) = true := by simp; omega
      have e2 : decide (q < (t.length : Int)) = true := by simp; omega
      have e3 : (q - 1).toNat = q.toNat - 1 := by omega
      have e4 : isHigh (t.getD (q.toNat - 1) 0) = true := by rwa [hqmin] at hhigh2
      have e5 : isLow (t.getD q.toNat 0) = true := by
        have e6 : min t.length q.toNat - 1 + 1 = q.toNat := by omega
        rwa [e6] at hlow
      unfold withinSurrogate
      rw [e3, e1, e2, e4, e5]
      rfl
    rw [hwithin] at hnw
    simp at hnw
  obtain ⟨htake, hdrop⟩ := wfA_split t false (min t.length q.toNat) hw (fun _ => rfl) hH
  unfold pyInsert
  rw [hk, List.append_assoc]
  exact wfA_append _ false _ htake (wfA_append _ false _ (sfree_wfA w hsf) hdrop)

/-- Applying any schedule of non-negative, surrogate-free insertions keeps the
text well-formed. -/
theorem applyRev_wf : ∀ (items : List InsItem) (t : List Nat),
    wfA false t = true →
    (∀ x ∈ items, 0 ≤ x.1 ∧ sfreeB x.2.2 = true) →
    wfA false (applyRev t items) = true := by
  intro items
  induction items with
  | nil => intro t hw _; simpa [applyRev] using hw
  | cons x rest ih =>
    intro t hw hx
    obtain ⟨p, tag, w⟩ := x
    simp only [applyRev]
    apply ih
    · exact wf_insert_step t w p hw (hx (p, tag, w) (by simp)).2 (hx (p, tag, w) (by simp)).1
    · intro y hy
      exact hx y (List.mem_cons_of_mem _ hy)

/-- Membership through the stable insertion of the schedule sort. -/
theorem mem_insItem : ∀ (l : List InsItem) (x y : InsItem), x ∈ insItem y l → x = y ∨ x ∈ l := by
  intro l
  induction l with
  | nil => intro x y h; simpa [insItem] using h
  | cons z zs ih =>
    intro x y h
    simp only [insItem] at h
    split at h
    · rcases List.mem_cons.mp h with h2 | h2
      · exact Or.inl h2
      · exact Or.inr h2
    · rcases List.mem_cons.mp h with h2 | h2
      · exact Or.inr (by simp [h2])
      · rcases ih x y h2 with h3 | h3
        · exact Or.inl h3
        · exact Or.inr (List.mem_cons_of_mem _ h3)

/-- Sorting the schedule introduces no new items. -/
theorem mem_sortInserts : ∀ (l : List InsItem) (x : InsItem), x ∈ sortInserts l → x ∈ l := by
  intro l
  induction l with
  | nil => intro x h; simp [sortInserts] at h
  | cons y ys ih =>
    intro x h
    simp only [sortInserts] at h
    rcases mem_insItem _ x y h with h2 | h2
    · simp [h2]
    · exact List.mem_cons_of_mem _ (ih x h2)

/-- A code unit below the surrogate range is neither half of a pair. -/
theorem not_surrogate_unit (c : Nat) (h : c < 55296) : isHigh c = false ∧ isLow c = false := by
  constructor
  · unfold isHigh
    rw [decide_eq_false (by omega : ¬ 55296 ≤ c)]
    simp
  · unfold isLow
    rw [decide_eq_false (by omega : ¬ 56320 ≤ c)]
    simp

/-- A code unit outside the surrogate range is neither half of a pair. -/
theorem not_surrogate_unit2 (c : Nat) (h : ¬(55296 ≤ c ∧ c < 57344)) :
    isHigh c = false ∧ isLow c = false := by
  rcases Nat.lt_or_ge c 55296 with h1 | h1
  · exact not_surrogate_unit c h1
  · constructor
    · unfold isHigh
      rw [decide_eq_false (by omega : ¬ c < 56320)]
      simp
    · unfold isLow
      rw [decide_eq_false (by omega : ¬ c < 57344)]
      simp

/-- Decimal digits contain no surrogate units. -/
theorem natDigitsAux_sfree : ∀ (f n : Nat), sfreeB (natDigitsAux f n) = true := by
  intro f
  induction f with
  | zero => intro n; rfl
  | succ f ih =>
    intro n
    simp only [natDigitsAux]
    split
    · rename_i h
      obtain ⟨h1, h2⟩ := not_surrogate_unit (48 + n) (by omega)
      simp [sfreeB, h1, h2]
    · obtain ⟨h1, h2⟩ := not_surrogate_unit (48 + n % 10) (by omega)
      have ih2 := ih (n / 10)
      simp only [sfreeB, List.all_eq_true, Bool.and_eq_true, Bool.not_eq_true,
        Bool.not_eq_true'] at ih2 ⊢
      intro x hx
      rcases List.mem_append.mp hx with hx | hx
      · exact ih2 x hx
      · obtain rfl := List.mem_singleton.mp hx
        exact ⟨h1, h2⟩

/-- `str(i)` contains no surrogate units. -/
theorem intStr_sfree (i : Int) : sfreeB (intStr i) = true := by
  unfold intStr
  split
  · simp only [sfreeB, List.all_cons, Bool.and_eq_true]
    exact ⟨by decide, natDigitsAux_sfree _ _⟩
  · exact natDigitsAux_sfree _ _

/-- The synthesized mention pseudo-url contains no surrogate units. -/
theorem mentionUrlCodes_sfree (uid : Int) : sfreeB (mentionUrlCodes uid) = true := by
  unfold mentionUrlCodes
  simp only [sfreeB, List.all_append, Bool.and_eq_true]
  exact ⟨by decide, intStr_sfree uid⟩

/-- The two marker insertions of an entity have non-negative positions and
surrogate-free text. -/
theorem marker_items_ok (i : Nat) (ent : MessageEntity) (d : List Nat)
    (ho : 0 ≤ ent.offset) (hl : 0 ≤ ent.length) (hsd : sfreeB d = true) :
    ∀ x ∈ [(ent.offset, (i : Int), d), (ent.offset + ent.length, -(i : Int), d)],
      0 ≤ x.1 ∧ sfreeB x.2.2 = true := by
  intro x hx
  simp only [List.mem_cons, List.not_mem_nil, or_false] at hx
  rcases hx with rfl | rfl
  · exact ⟨ho, hsd⟩
  · exact ⟨by omega, hsd⟩

/-- Every insertion scheduled for a data-model entity (non-negative offset and
length, surrogate-free url) with the default table has a non-negative position
and surrogate-free text. -/
theorem insertsFor_ok (i : Nat) (ent : MessageEntity)
    (ho : 0 ≤ ent.offset) (hl : 0 ≤ ent.length) (hu : sfreeB ent.url = true) :
    ∀ x ∈ insertsFor DEFAULT_DELIMITERS i ent, 0 ≤ x.1 ∧ sfreeB x.2.2 = true := by
  intro x hx
  cases hk : ent.kind
  case bold =>
    have hr : revLookup DEFAULT_DELIMITERS EntKind.bold = some (lit "**") := by decide
    simp only [insertsFor, hk, hr] at hx
    rw [if_neg (by decide)] at hx
    exact marker_items_ok i ent (lit "**") ho hl (by decide) x hx
  case italic =>
    have hr : revLookup DEFAULT_DELIMITERS EntKind.italic = some (lit "__") := by decide
    simp only [insertsFor, hk, hr] at hx
    rw [if_neg (by decide)] at hx
    exact marker_items_ok i ent (lit "__") ho hl (by decide) x hx
  case strike =>
    have hr : revLookup DEFAULT_DELIMITERS EntKind.strike = some (lit "~~") := by decide
    simp only [insertsFor, hk, hr] at hx
    rw [if_neg (by decide)] at hx
    exact marker_items_ok i ent (lit "~~") ho hl (by decide) x hx
  case code =>
    have hr : revLookup DEFAULT_DELIMITERS EntKind.code = some (lit "`") := by decide
    simp only [insertsFor, hk, hr] at hx
    rw [if_neg (by decide)] at hx
    exact marker_items_ok i ent (lit "`") ho hl (by decide) x hx
  case pre =>
    have hr : revLookup DEFAULT_DELIMITERS EntKind.pre = some (lit "```") := by decide
    simp only [insertsFor, hk, hr] at hx
    rw [if_neg (by decide)] at hx
    exact marker_items_ok i ent (lit "```") ho hl (by decide) x hx
  case textUrl =>
    have hr : revLookup DEFAULT_DELIMITERS EntKind.textUrl = none := by decide
    simp only [insertsFor, hk, hr, urlInserts] at hx
    by_cases hue : ent.url.isEmpty
    · rw [if_pos hue] at hx
      simp at hx
    · rw [if_neg hue] at hx
      simp only [List.mem_cons, List.not_mem_nil, or_false] at hx
      rcases hx with rfl | rfl
      · exact ⟨ho, show sfreeB [91] = true from by decide⟩
      · refine ⟨by omega, ?_⟩
        simp only [sfreeB, List.all_append, Bool.and_eq_true]
        exact ⟨⟨by decide, hu⟩, by decide⟩
  case mentionName =>
    have hr : revLookup DEFAULT_DELIMITERS EntKind.mentionName = none := by decide
    simp only [insertsFor, hk, hr, urlInserts] at hx
    simp only [List.mem_cons, List.not_mem_nil, or_false] at hx
    rcases hx with rfl | rfl
    · exact ⟨ho, show sfreeB [91] = true from by decide⟩
    · refine ⟨by omega, ?_⟩
      simp only [sfreeB, List.all_append, Bool.and_eq_true]
      exact ⟨⟨by decide, mentionUrlCodes_sfree ent.userId⟩, by decide⟩

/-- The whole schedule built from data-model entities is non-negative and
surrogate-free. -/
theorem buildInserts_ok : ∀ (ents : List MessageEntity) (i : Nat),
    (∀ ent ∈ ents, 0 ≤ ent.offset ∧ 0 ≤ ent.length ∧ sfreeB ent.url = true) →
    ∀ x ∈ buildInserts DEFAULT_DELIMITERS i ents, 0 ≤ x.1 ∧ sfreeB x.2.2 = true := by
  intro ents
  induction ents with
  | nil => intro i _ x hx; simp [buildInserts] at hx
  | cons ent es ih =>
    intro i h x hx
    simp only [buildInserts, List.mem_append] at hx
    obtain ⟨h1, h2, h3⟩ := h ent (by simp)
    rcases hx with hx | hx
    · exact insertsFor_ok i ent h1 h2 h3 x hx
    · exact ih (i + 1) (fun a ha => h a (List.mem_cons_of_mem _ ha)) x hx

/-- Surrogate-expanding a scalar text (no code point is a surrogate, all below
`0x110000`) yields a well-formed UTF-16 unit sequence. -/
theorem addSurrogate_wf : ∀ (input : List Nat),
    (∀ c ∈ input, c < 1114112 ∧ ¬(55296 ≤ c ∧ c < 57344)) →
    wfA false (addSurrogate input) = true := by
  intro input
  induction input with
  | nil => intro _; rfl
  | cons c cs ih =>
    intro h
    obtain ⟨hc1, hc2⟩ := h c (by simp)
    have hcs := ih (fun a ha => h a (List.mem_cons_of_mem _ ha))
    simp only [addSurrogate]
    split
    · rename_i hastral
      simp only [Bool.and_eq_true, decide_eq_true_eq] at hastral
      have hhi : isHigh (55296 + (c - 65536) / 1024) = true := by
        simp only [isHigh, Bool.and_eq_true, decide_eq_true_eq]
        omega
      have hlo : isLow (56320 + (c - 65536) % 1024) = true := by
        simp only [isLow, Bool.and_eq_true, decide_eq_true_eq]
        omega
      have hnotlow : isLow (55296 + (c - 65536) / 1024) = false := by
        simp only [isHigh, isLow, Bool.and_eq_true, decide_eq_true_eq] at hhi ⊢
        simp only [Bool.and_eq_false_iff, decide_eq_false_iff_not]
        omega
      simp [wfA, hhi, hlo, hcs]
    · rename_i hbmp
      have hb : ¬ (65536 ≤ c ∧ c ≤ 1114111) := by
        intro hcontra
        apply hbmp
        simp only [Bool.and_eq_true, decide_eq_true_eq]
        exact hcontra
      obtain ⟨hh, hl⟩ := not_surrogate_unit2 c hc2
      simp [wfA, hh, hl, hcs]

/-- C8: surrogate-pair safety of `unparse`.  The scheduled insertions (sorted
by position then tag and applied from the highest position downward, as
`unparseCore` does) are each nudged forward past any surrogate-pair interior,
so for every scalar input text and every data-model entity collection
(non-negative offsets and lengths, urls that are real text and hence contain
no surrogate units) the expanded text that `unparse` splices remains
well-formed UTF-16: no surrogate pair of the input is ever split by an
inserted marker. -/
theorem unparse_never_splits_surrogate_pairs (input : List Nat) (ents : List MessageEntity)
    (hin : ∀ c ∈ input, c < 1114112 ∧ ¬(55296 ≤ c ∧ c < 57344))
    (hent : ∀ ent ∈ ents, 0 ≤ ent.offset ∧ 0 ≤ ent.length ∧ sfreeB ent.url = true) :
    wfA false (unparseCore DEFAULT_DELIMITERS (addSurrogate input) ents) = true := by
  unfold unparseCore
  apply applyRev_wf
  · exact addSurrogate_wf input hin
  · intro x hx
    rw [List.mem_reverse] at hx
    exact buildInserts_ok ents 0 hent x (mem_sortInserts _ x hx)

/-- C8 witness: emboldening the text `"a😀"` — the closing marker position 2
falls between the two halves of the emoji's surrogate pair and is nudged to 3,
so the spliced expanded text stays well-formed. -/
theorem unparse_never_splits_surrogate_pairs_witness :
    (∀ c ∈ [97, 128512], c < 1114112 ∧ ¬(55296 ≤ c ∧ c < 57344)) ∧
    (∀ ent ∈ [mkBold 0 2], 0 ≤ ent.offset ∧ 0 ≤ ent.length ∧ sfreeB ent.url = true) ∧
    wfA false (unparseCore DEFAULT_DELIMITERS (addSurrogate [97, 128512]) [mkBold 0 2]) = true :=
  ⟨by decide, by decide,
   unparse_never_splits_surrogate_pairs [97, 128512] [mkBold 0 2] (by decide) (by decide)⟩
